import Mathlib

set_option maxRecDepth 8000

/-!
Verification development for the nerai conversational messaging relay.

The repository contains two copies of the buffering core:
a top-level one (`src/utils/message_buffer.py`, imported by `src/app.py`)
and an older snapshot (`src/Nerai/utils/message_buffer.py`).  The two
copies differ in how the burst drain decision is made, so both are
embedded here, in the namespaces `UtilsBuf` and `NeraiBuf`.

Embedding conventions, used throughout:

* Python strings become `List Char` where character-level operations
  matter (`normalize_phone`, chunk splitting) and `String` elsewhere.
* `time.time()` becomes a `Nat` tick counter.  In `NeraiBuf` one tick is
  one second (the code's `asyncio.sleep(1)` poll granularity); in
  `UtilsBuf` and in the `wait_for_user_available` model one tick is
  100 ms (the code's `check_interval = 0.1` poll granularity).
* The asyncio interleaving is made deterministic: at every tick the
  pending presence event is applied first, then the tick's inbound
  fragments in arrival order, then one step of the (single) per-identity
  scheduler task.  External calls (`agent_executor.ainvoke` and message
  delivery) are modelled as instantaneous at the drain tick; the run
  state records the sequence of `ainvoke` inputs in `calls`.
* Python floats become exact rationals; `random.uniform(-v, v)` becomes
  an arbitrary rational parameter; `int(...)` becomes truncation toward
  zero (`pyInt`).
* The transport (`whatsapp_client.send_message`) becomes an oracle
  `Nat → Bool` giving the success of the k-th transport call; a raised
  exception and a `False` return are identified, since the code handles
  both by the same `return False` path.
-/

namespace Nerai

/-- The hard-coded agent number tested by `handle_message` in both
copies of `message_buffer.py` (`if number == '5511911043825'`). -/
def agentNumber : String := "5511911043825"

/-! ## Conversation manager (`src/utils/conversation_manager.py`)

`normalize_phone` (lines 27-54; the copy in
`src/Nerai/utils/conversation_manager.py` is textually identical).
Inputs are `List Char`; each Python string operation is modelled by a
structurally recursive function with Python's semantics. -/

/-- Python `str.strip` whitespace set: space, tab, newline, carriage
return, vertical tab, form feed. -/
def pyWs (c : Char) : Bool :=
  c == ' ' || c == '\t' || c == '\n' || c == '\r' || c == '\x0B' || c == '\x0C'

/-- Python `str.strip()`: drop leading and trailing whitespace. -/
def pyStrip (s : List Char) : List Char :=
  ((s.dropWhile pyWs).reverse.dropWhile pyWs).reverse

/-- Python `str.replace(p, "")` for a single-character pattern `p`:
remove every occurrence of the character. -/
def removeChar (p : Char) : List Char → List Char
  | [] => []
  | c :: r => if c == p then removeChar p r else c :: removeChar p r

/-- Python `str.replace("@c.us", "")`: remove occurrences of `"@c.us"`
left to right, non-overlapping, scanning on after each removal (the
result is not rescanned, exactly like CPython `str.replace`). -/
def removeCUS : List Char → List Char
  | '@' :: 'c' :: '.' :: 'u' :: 's' :: rest => removeCUS rest
  | c :: rest => c :: removeCUS rest
  | [] => []

/-- Boolean prefix test (Python `str.startswith`). -/
def leadsWith : List Char → List Char → Bool
  | [], _ => true
  | _ :: _, [] => false
  | p :: ps, c :: cs => p == c && leadsWith ps cs

/-- The `while phone.startswith("55"): phone = phone[2:]` loop. -/
def stripLeading55 : List Char → List Char
  | '5' :: '5' :: rest => stripLeading55 rest
  | p => p

/-- Steps 1 of `normalize_phone` (lines 32-37): strip, then remove
`"+"`, `"@c.us"`, `"("`, `")"`, `"-"` and `" "`, in source order. -/
def cleanPhone (input : List Char) : List Char :=
  let p := pyStrip input
  let p := removeChar '+' p
  let p := removeCUS p
  let p := removeChar '(' p
  let p := removeChar ')' p
  let p := removeChar '-' p
  removeChar ' ' p

/-- Steps 2-4 of `normalize_phone` (lines 39-52): strip every leading
`"55"`, re-prepend `"55"` once, and insert a `'9'` after the DDD when
the result has exactly 12 characters. -/
def postPhone (p0 : List Char) : List Char :=
  let p1 := stripLeading55 p0
  let p2 := if leadsWith ['5', '5'] p1 then p1 else '5' :: '5' :: p1
  if p2.length = 12 then
    '5' :: '5' :: ((p2.drop 2).take 2 ++ '9' :: p2.drop 4)
  else p2

/-- Model of `ConversationManager.normalize_phone`, lines 27-54. -/
def normalize_phone (input : List Char) : List Char :=
  postPhone (cleanPhone input)

theorem stripLeading55_of_not55 (p : List Char)
    (h : leadsWith ['5', '5'] p = false) : stripLeading55 p = p := by
  rw [stripLeading55.eq_def]
  split
  · simp [leadsWith] at h
  · rfl

theorem leadsWith55_stripLeading55 (p : List Char) :
    leadsWith ['5', '5'] (stripLeading55 p) = false := by
  induction p using stripLeading55.induct with
  | case1 rest ih => rw [stripLeading55]; exact ih
  | case2 p h =>
    have hfalse : leadsWith ['5', '5'] p = false := by
      cases p with
      | nil => rfl
      | cons a q =>
        cases q with
        | nil => simp [leadsWith]
        | cons b r =>
          by_contra hne
          have htrue : leadsWith ['5', '5'] (a :: b :: r) = true := by
            cases hv : leadsWith ['5', '5'] (a :: b :: r) with
            | false => exact absurd hv hne
            | true => rfl
          simp only [leadsWith, Bool.and_eq_true, beq_iff_eq] at htrue
          obtain ⟨ha, hb, -⟩ := htrue
          exact h r (by rw [← ha, ← hb])
    rw [stripLeading55_of_not55 p hfalse]
    exact hfalse

/-- Every output of `normalize_phone` is `"55"` followed by a suffix
that does not itself start with `"55"`. -/
theorem normalize_phone_shape (x : List Char) :
    ∃ z, normalize_phone x = '5' :: '5' :: z ∧
      leadsWith ['5', '5'] z = false := by
  unfold normalize_phone postPhone
  generalize hg : stripLeading55 (cleanPhone x) = p1
  have h1 : leadsWith ['5', '5'] p1 = false := hg ▸ leadsWith55_stripLeading55 _
  simp only [h1, Bool.false_eq_true, if_false]
  by_cases hl : ('5' :: '5' :: p1).length = 12
  · rw [if_pos hl]
    simp only [List.length_cons] at hl
    have h10 : p1.length = 10 := by omega
    rcases p1 with _ | ⟨a, _ | ⟨b, r⟩⟩
    · simp at h10
    · simp at h10
    · refine ⟨a :: b :: '9' :: r, by simp, ?_⟩
      simp only [leadsWith, Bool.and_eq_false_iff] at h1 ⊢
      rcases h1 with h | h
      · exact Or.inl h
      · rcases h with h | h
        · exact Or.inr (Or.inl h)
        · simp [leadsWith] at h
  · rw [if_neg hl]
    exact ⟨p1, rfl, h1⟩

/-- No output of `normalize_phone` has length 12 (the 12-character case
is rewritten to 13 characters, and all other lengths pass through). -/
theorem normalize_phone_length_ne_twelve (x : List Char) :
    (normalize_phone x).length ≠ 12 := by
  unfold normalize_phone postPhone
  generalize hg : stripLeading55 (cleanPhone x) = p1
  have h1 : leadsWith ['5', '5'] p1 = false := hg ▸ leadsWith55_stripLeading55 _
  simp only [h1, Bool.false_eq_true, if_false]
  by_cases hl : ('5' :: '5' :: p1).length = 12
  · rw [if_pos hl]
    simp only [List.length_cons] at hl
    have h10 : p1.length = 10 := by omega
    simp [List.length_append, List.length_take, List.length_drop, h10]
  · rw [if_neg hl]
    exact hl

/-- The post phase `postPhone` fixes every list that is `"55"` followed by a non-`"55"`
suffix and does not have length 12. -/
theorem postPhone_fix (y : List Char)
    (hshape : ∃ z, y = '5' :: '5' :: z ∧ leadsWith ['5', '5'] z = false)
    (hlen : y.length ≠ 12) : postPhone y = y := by
  obtain ⟨z, rfl, hz⟩ := hshape
  unfold postPhone
  have hstrip : stripLeading55 ('5' :: '5' :: z) = z := by
    rw [stripLeading55]
    exact stripLeading55_of_not55 z hz
  rw [hstrip]
  simp only [hz, Bool.false_eq_true, if_false]
  rw [if_neg hlen]

/-- C7 counterexample: `normalize_phone` is not idempotent on every raw
input string.  On `"@c.u@c.uss"` the single left-to-right removal pass
of `"@c.us"` re-forms the substring `"@c.us"`, so the first
normalization returns `"55@c.us"` while the second returns `"55"`. -/
theorem C7_normalize_not_idempotent_counterexample :
    normalize_phone (normalize_phone "@c.u@c.uss".toList) ≠
      normalize_phone "@c.u@c.uss".toList := by
  decide

/-- C7 (amended): `normalize_phone` is idempotent on every input whose
normalized form is a fixed point of the cleaning phase (strip plus the
character and `"@c.us"` removals of lines 33-37) — in particular on all
ordinarily formatted phone numbers.  The raw inputs excluded are exactly
those where one cleaning pass leaves residual cleanable text (a
re-formed `"@c.us"` or exposed trailing whitespace). -/
theorem C7_normalize_phone_idempotent_on_clean
    (x : List Char)
    (hclean : cleanPhone (normalize_phone x) = normalize_phone x) :
    normalize_phone (normalize_phone x) = normalize_phone x := by
  conv_lhs => rw [normalize_phone, hclean]
  exact postPhone_fix _ (normalize_phone_shape x)
    (normalize_phone_length_ne_twelve x)

/-- C7 witness: the idempotence theorem applied at the concrete raw
input `"+55 (11) 98765-4321"`. -/
theorem C7_normalize_phone_idempotent_witness :
    cleanPhone (normalize_phone "+55 (11) 98765-4321".toList) =
        normalize_phone "+55 (11) 98765-4321".toList ∧
      normalize_phone (normalize_phone "+55 (11) 98765-4321".toList) =
        normalize_phone "+55 (11) 98765-4321".toList :=
  ⟨by decide, C7_normalize_phone_idempotent_on_clean _ (by decide)⟩

/-! ## Smart message processor (`src/utils/smart_message_processor.py`)

`MessageProcessorConfig` (lines 13-23), `calculate_typing_delay`
(lines 43-62) and `SmartMessageProcessor.send_message` (lines 80-133).
Floats are modelled as exact rationals, `random.uniform(-v, v)` as an
arbitrary rational `jitter`, and `int(...)` as truncation toward zero.
The transport is an oracle `Nat → Bool` giving the outcome of the k-th
`client.send_message` call; an exception and a `False` return are
identified because the code turns both into `return False`. -/

/-- Model of `MessageProcessorConfig`, lines 13-23. -/
structure MessageProcessorConfig where
  min_delay : Int
  max_delay : Int
  chars_per_second : ℚ
  variation_percent : ℚ
  max_chunk_size : Nat
  question_pause : ℚ
  exclamation_pause : ℚ
  default_pause : ℚ
deriving DecidableEq

/-- The default field values of `MessageProcessorConfig` (the instance
built by `MessageProcessorConfig()` at line 193). -/
def MessageProcessorConfig.default : MessageProcessorConfig :=
  ⟨1000, 3000, 60, 1/10, 1000, 1, 8/10, 1/2⟩

/-- Python `int(...)` on a float: truncation toward zero. -/
def pyInt (q : ℚ) : Int :=
  if 0 ≤ q then ⌊q⌋ else ⌈q⌉

/-- Model of `SmartMessageProcessor.calculate_typing_delay`, lines 43-62.  The
`except` branch returns `min_delay`; with exact rationals the only
modelled exception source is the `ZeroDivisionError` raised when
`chars_per_second` is zero. -/
def calculate_typing_delay (cfg : MessageProcessorConfig)
    (text_length : Nat) (jitter : ℚ) : Int :=
  if cfg.chars_per_second = 0 then cfg.min_delay
  else
    let base : ℚ := (text_length : ℚ) / cfg.chars_per_second * 1000
    let delay := base + jitter
    pyInt (max (cfg.min_delay : ℚ) (min delay (cfg.max_delay : ℚ)))

/-- Python `text.split("\x7bnl\x7d\x7bnl\x7d")` specialised to the
`"\n\n"` separator of line 93: split on non-overlapping occurrences of
two consecutive newlines, left to right. -/
def splitNN : List Char → List (List Char)
  | '\n' :: '\n' :: rest => [] :: splitNN rest
  | c :: rest =>
    match splitNN rest with
    | [] => [[c]]
    | g :: gs => (c :: g) :: gs
  | [] => [[]]

/-- Line 93-97 of `send_message`: split on `"\n\n"`, strip each chunk,
keep the non-empty ones, and fall back to the whole text as a single
chunk when nothing remains. -/
def splitChunks (text : List Char) : List (List Char) :=
  let chunks := ((splitNN text).map pyStrip).filter (fun c => !c.isEmpty)
  if chunks.isEmpty then [text] else chunks

/-- Outcome of one `send_message` call: overall success, the chunks that
were actually handed to the transport successfully (in order), and the
number of transport calls made. -/
structure SendResult where
  ok : Bool
  sent : List (List Char)
  callsMade : Nat
deriving DecidableEq

/-- The chunk loop of `send_message`, lines 102-129: send each chunk in
order through the transport; on the first failed or throwing call,
return `False` immediately.  `k` counts transport calls already made and
`sent` accumulates successfully sent chunks. -/
def sendChunksLoop (transport : Nat → Bool) :
    List (List Char) → Nat → List (List Char) → SendResult
  | [], k, sent => ⟨true, sent, k⟩
  | c :: rest, k, sent =>
    if transport k then sendChunksLoop transport rest (k + 1) (sent ++ [c])
    else ⟨false, sent, k + 1⟩

/-- Model of `SmartMessageProcessor.send_message`, lines 80-133.  The typing
delay computed per chunk and the inter-chunk pauses do not influence
the returned value and are omitted. -/
def send_message (text : List Char) (transport : Nat → Bool) : SendResult :=
  sendChunksLoop transport (splitChunks text) 0 []

/-- The attempt loop of `send_message_with_presence_check`
(`src/utils/message_buffer.py` lines 96-126): up to `fuel` attempts; on
attempt `k`, wait for availability, re-check `is_user_available`
(modelled by the oracle `avail k`) and if available return the result of
`send_message_in_chunks` (modelled by `sendOk`); otherwise sleep and
retry; `False` after the last attempt. -/
def presenceLoop (avail : Nat → Bool) (sendOk : Bool) :
    Nat → Nat → Bool
  | _, 0 => false
  | attempt, fuel + 1 =>
    if avail attempt then sendOk else presenceLoop avail sendOk (attempt + 1) fuel

/-- Model of `send_message_with_presence_check` with its hard-coded
`max_retries = 3`. -/
def send_message_with_presence_check (avail : Nat → Bool) (sendOk : Bool) : Bool :=
  presenceLoop avail sendOk 0 3

theorem sendChunksLoop_all_ok (transport : Nat → Bool) :
    ∀ (cs : List (List Char)) (k : Nat) (sent : List (List Char)),
      (∀ j, j < cs.length → transport (k + j) = true) →
      sendChunksLoop transport cs k sent = ⟨true, sent ++ cs, k + cs.length⟩ := by
  intro cs
  induction cs with
  | nil => intro k sent _; simp [sendChunksLoop]
  | cons c rest ih =>
    intro k sent hall
    have h0 : transport k = true := by
      have := hall 0 (by simp)
      simpa using this
    rw [sendChunksLoop, if_pos h0, ih (k + 1) (sent ++ [c])]
    · simp only [List.append_assoc, List.singleton_append, List.length_cons]
      have harith : k + 1 + rest.length = k + (rest.length + 1) := by omega
      rw [harith]
    · intro j hj
      have := hall (j + 1) (by simpa using Nat.succ_lt_succ hj)
      simpa [Nat.add_assoc, Nat.add_comm 1 j] using this

theorem sendChunksLoop_first_fail (transport : Nat → Bool) :
    ∀ (j : Nat) (cs : List (List Char)) (k : Nat) (sent : List (List Char)),
      j < cs.length → transport (k + j) = false →
      (∀ i, i < j → transport (k + i) = true) →
      sendChunksLoop transport cs k sent = ⟨false, sent ++ cs.take j, k + j + 1⟩ := by
  intro j
  induction j with
  | zero =>
    intro cs k sent hlt hfail _
    match cs, hlt with
    | c :: rest, _ =>
      rw [sendChunksLoop, if_neg (by simpa using hfail)]
      simp
  | succ j ih =>
    intro cs k sent hlt hfail hok
    match cs, hlt with
    | c :: rest, hlt2 =>
      have h0 : transport k = true := by simpa using hok 0 (Nat.succ_pos j)
      rw [sendChunksLoop, if_pos h0]
      have hrec := ih rest (k + 1) (sent ++ [c])
        (by simp only [List.length_cons] at hlt2; omega)
        (by simpa [Nat.add_assoc, Nat.add_comm 1 j] using hfail)
        (fun i hi => by
          have := hok (i + 1) (Nat.succ_lt_succ hi)
          simpa [Nat.add_assoc, Nat.add_comm 1 i] using this)
      rw [hrec]
      simp only [List.take_succ_cons, List.append_assoc, List.singleton_append]
      have harith : k + 1 + j + 1 = k + (j + 1) + 1 := by omega
      rw [harith]

/-- Full case analysis of `send_message`: either every transport call
succeeds and all chunks are sent, or there is a first failing call after
which the loop aborts immediately. -/
theorem send_message_cases (text : List Char) (transport : Nat → Bool) :
    ((∀ j, j < (splitChunks text).length → transport j = true) ∧
      send_message text transport =
        ⟨true, splitChunks text, (splitChunks text).length⟩) ∨
    (∃ j, j < (splitChunks text).length ∧ transport j = false ∧
      (∀ i, i < j → transport i = true) ∧
      send_message text transport =
        ⟨false, (splitChunks text).take j, j + 1⟩) := by
  by_cases hall : ∀ j, j < (splitChunks text).length → transport j = true
  · left
    refine ⟨hall, ?_⟩
    have := sendChunksLoop_all_ok transport (splitChunks text) 0 []
      (fun j hj => by simpa using hall j hj)
    simpa [send_message] using this
  · right
    push_neg at hall
    obtain ⟨j1, hj1, hf1⟩ := hall
    have hex : ∃ j, j < (splitChunks text).length ∧ transport j = false :=
      ⟨j1, hj1, by cases hv : transport j1 with
        | false => rfl
        | true => exact absurd hv hf1⟩
    let j0 := Nat.find hex
    have hspec := Nat.find_spec hex
    refine ⟨j0, hspec.1, hspec.2, ?_, ?_⟩
    · intro i hi
      have hnot := Nat.find_min hex hi
      cases hv : transport i with
      | true => rfl
      | false => exact absurd ⟨lt_trans hi hspec.1, hv⟩ hnot
    · have := sendChunksLoop_first_fail transport j0 (splitChunks text) 0 []
        hspec.1 (by simpa using hspec.2)
        (fun i hi => by
          have hnot := Nat.find_min hex hi
          cases hv : transport i with
          | true => simpa using hv
          | false => exact absurd ⟨lt_trans hi hspec.1, hv⟩ hnot)
      simpa [send_message] using this

/-- C4: `send_message` returns true iff every chunk was sent; the chunks
actually sent always form a prefix of the chunk list (earlier successes
are never retracted), and on a failure the result is false with exactly
the chunks before the failing one sent. -/
theorem C4_send_message_prefix_iff (text : List Char) (transport : Nat → Bool) :
    (∃ j, j ≤ (splitChunks text).length ∧
      (send_message text transport).sent = (splitChunks text).take j) ∧
    ((send_message text transport).ok = true ↔
      (send_message text transport).sent = splitChunks text) := by
  rcases send_message_cases text transport with ⟨-, heq⟩ | ⟨j, hj, -, -, heq⟩
  · rw [heq]
    exact ⟨⟨(splitChunks text).length, le_refl _, (List.take_length _).symm⟩,
      by simp⟩
  · rw [heq]
    refine ⟨⟨j, le_of_lt hj, rfl⟩, ?_⟩
    simp only [Bool.false_eq_true, false_iff]
    intro hcontra
    have hlen := congrArg List.length hcontra
    simp only [List.length_take] at hlen
    omega

/-- C3 (amended): a failed chunk send is never retried — the first
transport call that fails or raises aborts delivery with `False`
immediately, so at most one transport call is made per chunk; the
3-attempt loop of `send_message_with_presence_check` retries only
failures of the availability pre-check, and whenever the first
availability check passes it returns exactly the single
`send_message_in_chunks` result, retrying nothing. -/
theorem C3_no_retry_on_failed_send (text : List Char) (transport : Nat → Bool)
    (avail : Nat → Bool) (sendOk : Bool) (havail : avail 0 = true) :
    (send_message text transport).callsMade ≤ (splitChunks text).length ∧
    ((send_message text transport).ok = true ↔
      ∀ j, j < (splitChunks text).length → transport j = true) ∧
    send_message_with_presence_check avail sendOk = sendOk := by
  refine ⟨?_, ?_, ?_⟩
  · rcases send_message_cases text transport with ⟨-, heq⟩ | ⟨j, hj, -, -, heq⟩
    · rw [heq]
    · rw [heq]; simpa using hj
  · rcases send_message_cases text transport with ⟨hall, heq⟩ |
      ⟨j, hj, hf, -, heq⟩
    · rw [heq]
      simpa using hall
    · rw [heq]
      simp only [Bool.false_eq_true, false_iff]
      intro hcontra
      rw [hcontra j hj] at hf
      exact Bool.noConfusion hf
  · rw [send_message_with_presence_check, presenceLoop, if_pos havail]

/-- C3 counterexample: with a transport whose first call fails and whose
every later call would succeed, `send_message` makes exactly one
transport call and reports failure — the failed chunk send is not
retried (a retry, as claimed, would have succeeded on attempt 2). -/
theorem C3_single_attempt_counterexample :
    send_message "ola".toList (fun k => decide (1 ≤ k)) =
        ⟨false, [], 1⟩ ∧
      (fun k => decide (1 ≤ k)) 1 = true := by
  constructor
  · decide
  · decide

/-- C3 witness: the no-retry theorem applied at the single-chunk text
`"ola"`, an always-succeeding transport and an always-available
recipient with a failing send result. -/
theorem C3_no_retry_witness :
    (fun _ : Nat => true) 0 = true ∧
      ((send_message "ola".toList (fun _ => true)).callsMade ≤
          (splitChunks "ola".toList).length ∧
        ((send_message "ola".toList (fun _ => true)).ok = true ↔
          ∀ j, j < (splitChunks "ola".toList).length → (fun _ : Nat => true) j = true) ∧
        send_message_with_presence_check (fun _ => true) false = false) :=
  ⟨rfl, C3_no_retry_on_failed_send "ola".toList (fun _ => true)
    (fun _ => true) false rfl⟩

/-- C9 (amended): for every configuration with `min_delay ≤ max_delay`
and every chunk length and jitter, `calculate_typing_delay` returns a
value in `[min_delay, max_delay]`; the default configuration sets
`min_delay = 1000` and `max_delay = 3000` milliseconds. -/
theorem C9_typing_delay_bounds (cfg : MessageProcessorConfig)
    (text_length : Nat) (jitter : ℚ)
    (h : cfg.min_delay ≤ cfg.max_delay) :
    (cfg.min_delay ≤ calculate_typing_delay cfg text_length jitter ∧
      calculate_typing_delay cfg text_length jitter ≤ cfg.max_delay) ∧
    MessageProcessorConfig.default.min_delay = 1000 ∧
    MessageProcessorConfig.default.max_delay = 3000 := by
  refine ⟨?_, rfl, rfl⟩
  unfold calculate_typing_delay
  by_cases hz : cfg.chars_per_second = 0
  · rw [if_pos hz]
    exact ⟨le_refl _, h⟩
  · rw [if_neg hz]
    set x : ℚ :=
      max (cfg.min_delay : ℚ)
        (min ((text_length : ℚ) / cfg.chars_per_second * 1000 + jitter)
          (cfg.max_delay : ℚ)) with hx
    have hx1 : (cfg.min_delay : ℚ) ≤ x := le_max_left _ _
    have hx2 : x ≤ (cfg.max_delay : ℚ) :=
      max_le (by exact_mod_cast h) (min_le_right _ _)
    unfold pyInt
    by_cases hpos : 0 ≤ x
    · rw [if_pos hpos]
      constructor
      · exact Int.le_floor.mpr hx1
      · exact_mod_cast le_trans (Int.floor_le x) hx2
    · rw [if_neg hpos]
      constructor
      · exact_mod_cast le_trans hx1 (Int.le_ceil x)
      · exact Int.ceil_le.mpr hx2

/-- C9 counterexample: the default configuration's `max_delay` is
3000 ms, not the 5000 ms stated; a long chunk is clamped to 3000 ms. -/
theorem C9_default_max_delay_counterexample :
    MessageProcessorConfig.default.max_delay ≠ 5000 ∧
      calculate_typing_delay MessageProcessorConfig.default 1000 0 = 3000 := by
  constructor
  · decide
  · norm_num [calculate_typing_delay, pyInt, MessageProcessorConfig.default]

/-- C9 witness: the bounds theorem applied at the default configuration,
chunk length 120 and zero jitter. -/
theorem C9_typing_delay_witness :
    MessageProcessorConfig.default.min_delay ≤
        MessageProcessorConfig.default.max_delay ∧
      ((MessageProcessorConfig.default.min_delay ≤
          calculate_typing_delay MessageProcessorConfig.default 120 0 ∧
        calculate_typing_delay MessageProcessorConfig.default 120 0 ≤
          MessageProcessorConfig.default.max_delay) ∧
      MessageProcessorConfig.default.min_delay = 1000 ∧
      MessageProcessorConfig.default.max_delay = 3000) :=
  ⟨by decide, C9_typing_delay_bounds MessageProcessorConfig.default 120 0 (by decide)⟩

/-- Python `" ".join(messages)` (line 243 of
`src/utils/message_buffer.py`, line 122 of the Nerai copy). -/
def joinSpace : List String → String
  | [] => ""
  | [m] => m
  | m :: r => m ++ " " ++ joinSpace r

/-- The cap `MessageBufferConfig.max_buffer_size = 100`, shared by both copies
of `message_buffer.py`. -/
def maxBufferSize : Nat := 100

namespace UtilsBuf

/-! ## Top-level buffer module (`src/utils/message_buffer.py`)

Model of the buffer actually imported by `src/app.py`.  One tick is
100 ms (the `check_interval = 0.1` polling granularity of
`wait_for_user_available`), so the constants become:
presence staleness 30 s = 300 ticks, `presence_timeout` 2 s = 20 ticks.

The per-identity state is: the buffer entry of `_message_buffer`
(messages, `last_activity`, `processing`), the control state of the
single active `_wait_and_process` task (`sched`: the outer loop's
`last_activity_snapshot` and the inner `wait_for_user_available` loop's
`start_time`), the identity's `presence_status` entry, and the log of
`agent_executor.ainvoke` inputs (`calls`).  Each tick applies the
tick's presence event, then the tick's inbound fragments through
`handle_message`, then one polling step of the task. -/

/-- Presence staleness threshold: 30 s, in 100 ms ticks. -/
def staleTicks : Nat := 300

/-- The value `MessageBufferConfig.presence_timeout = 2` s, in 100 ms ticks. -/
def presenceTimeoutTicks : Nat := 20

/-- One `presence_status` entry: `status` and `last_update`. -/
structure UPres where
  status : String
  lastUpdate : Nat
deriving DecidableEq

/-- One `_message_buffer` entry: `messages`, `last_activity`,
`processing`. -/
structure UBuf where
  messages : List String
  lastActivity : Nat
  processing : Bool
deriving DecidableEq

/-- Control state of the running `_wait_and_process` task:
`snapshot` is the outer loop's `last_activity_snapshot`, `availStart`
is `wait_for_user_available`'s consecutive-availability `start_time`
(`none` when unset). -/
structure USched where
  snapshot : Nat
  availStart : Option Nat
deriving DecidableEq

/-- Whole per-identity state plus the `ainvoke` call log. -/
structure USys where
  buffer : Option UBuf
  sched : Option USched
  presence : Option UPres
  calls : List String
deriving DecidableEq

def initUSys : USys := ⟨none, none, none, []⟩

/-- Model of `update_presence`, lines 17-39: overwrite the presence record with
the new status and current time, and refresh the buffer's
`last_activity` when the status is `recording` or `composing`. -/
def update_presence (status : String) (t : Nat) (s : USys) : USys :=
  let s1 : USys := ⟨s.buffer, s.sched, some ⟨status, t⟩, s.calls⟩
  match s1.buffer with
  | some b =>
    if status = "recording" ∨ status = "composing" then
      ⟨some ⟨b.messages, t, b.processing⟩, s1.sched, s1.presence, s1.calls⟩
    else s1
  | none => s1

/-- Core of `is_user_available`, lines 41-60: available when the
presence record is stale (older than 30 s) or its status is not
composing/recording; an absent record behaves as status `"available"`
with `last_update 0`. -/
def presAvailable (pres : Option UPres) (t : Nat) : Bool :=
  let status := match pres with
    | some p => p.status
    | none => "available"
  let lastUpdate := match pres with
    | some p => p.lastUpdate
    | none => 0
  if staleTicks < t - lastUpdate then true
  else decide (¬(status = "composing" ∨ status = "recording"))

/-- The check `is_user_available` on the whole per-identity state. -/
def is_user_available (s : USys) (t : Nat) : Bool :=
  presAvailable s.presence t

/-- Model of `MessageBuffer.handle_message`, lines 251-271: drop the agent's own
number, lazily create the buffer entry, reset it when it already holds
`max_buffer_size` fragments, append the fragment, stamp
`last_activity`, and start a `_wait_and_process` task when none is
running (`processing` false). -/
def handle_message (number msg : String) (t : Nat) (s : USys) : USys :=
  if number = agentNumber then s
  else
    let b0 := s.buffer.getD ⟨[], t, false⟩
    let b1 := if maxBufferSize ≤ b0.messages.length then (⟨[], t, false⟩ : UBuf) else b0
    let b2 : UBuf := ⟨b1.messages ++ [msg], t, b1.processing⟩
    if b2.processing then ⟨some b2, s.sched, s.presence, s.calls⟩
    else ⟨some ⟨b2.messages, b2.lastActivity, true⟩, some ⟨t, none⟩,
      s.presence, s.calls⟩

/-- One 100 ms polling step of `_wait_and_process` (lines 210-249) at
tick `t`: while the inner `wait_for_user_available` has not accumulated
`presence_timeout` consecutive available ticks, track availability;
when it completes, either restart the outer loop (new activity since the
snapshot) or drain: read `messages`, drop the buffer entry, and when
non-empty record the `" ".join`ed context as one `ainvoke` call
(`_process_message`, modelled as instantaneous). -/
def taskStep (t : Nat) (s : USys) : USys :=
  match s.sched with
  | none => s
  | some sc =>
    match s.buffer with
    | none => ⟨s.buffer, none, s.presence, s.calls⟩
    | some b =>
      if is_user_available s t then
        match sc.availStart with
        | none => ⟨s.buffer, some ⟨sc.snapshot, some t⟩, s.presence, s.calls⟩
        | some a =>
          if presenceTimeoutTicks ≤ t - a then
            if sc.snapshot < b.lastActivity then
              ⟨s.buffer, some ⟨b.lastActivity, some t⟩, s.presence, s.calls⟩
            else
              ⟨none, none, s.presence,
                s.calls ++ (if b.messages = [] then [] else [joinSpace b.messages])⟩
          else s
      else ⟨s.buffer, some ⟨sc.snapshot, none⟩, s.presence, s.calls⟩

/-- One whole tick: presence event (if any), then the tick's inbound
fragments in order, then one task polling step. -/
def stepAt (arr : Nat → List String) (pres : Nat → Option String)
    (number : String) (t : Nat) (s : USys) : USys :=
  let s1 := match pres t with
    | some st => update_presence st t s
    | none => s
  let s2 := (arr t).foldl (fun s m => handle_message number m t s) s1
  taskStep t s2

/-- Run the system for `n` ticks (ticks `0` to `n - 1`). -/
def run (arr : Nat → List String) (pres : Nat → Option String)
    (number : String) : Nat → USys
  | 0 => initUSys
  | n + 1 => stepAt arr pres number n (run arr pres number n)

/-- Arrival timeline: one fragment `"oi"` at tick 0, nothing later. -/
def oiAt0 : Nat → List String := fun t => if t = 0 then ["oi"] else []

/-- Arrival timeline of the spec's coalescing scenario: `"oi"` at
tick 0 and `"queria saber sobre planos"` 3 s later (tick 30). -/
def oiThenPlanos : Nat → List String := fun t =>
  if t = 0 then ["oi"] else if t = 30 then ["queria saber sobre planos"] else []

/-- Arrival timeline of the debounce-extension scenario: fragments at
time T = 0 and at T + (window − 1 s) = 9 s (tick 90). -/
def twoFragments9s : Nat → List String := fun t =>
  if t = 0 then ["m1"] else if t = 90 then ["m2"] else []

/-- No presence events at all. -/
def noPresence : Nat → Option String := fun _ => none

/-- A `composing` presence event every tick (the recipient's typing
indicator kept continuously fresh). -/
def alwaysComposing : Nat → Option String := fun _ => some "composing"

/-- C1 counterexample: in the buffer module the application imports
(`src/utils/message_buffer.py`), the spec's own scenario — `"oi"`, then
`"queria saber sobre planos"` 3 seconds later, no presence events —
produces two `agent_executor.ainvoke` calls, because `_wait_and_process`
drains once the user has been available for `presence_timeout` (2 s),
not after a 10 s fragment-quiescence window: `"oi"` is drained alone at
t = 2 s, the second fragment alone at t = 5 s. -/
theorem C1_two_calls_counterexample :
    (run oiThenPlanos noPresence "5511988887777" 60).calls =
        ["oi", "queria saber sobre planos"] ∧
      ["oi", "queria saber sobre planos"] ≠ ["oi queria saber sobre planos"] :=
  ⟨by decide, by decide⟩

/-- C5 counterexample: with fragments at T = 0 and T + 9 s (tick 90)
and no presence events, the running buffer module has already drained
(and called the responder on) the first fragment by tick 21 (2.1 s),
far before the claimed earliest drain point T + 9 s + 10 s. -/
theorem C5_early_drain_counterexample :
    (run twoFragments9s noPresence "5511977776666" 21).calls = ["m1"] := by
  decide

/-- C2 counterexample: one fragment `"oi"` at t = 0 and a `composing`
presence event every 100 ms; after 20 s (201 ticks) the burst has not
been drained and no responder call has been made, although the buffered
fragments have been quiescent (no new fragment) for twice the 10 s
window — presence does gate the drain decision in the running module. -/
theorem C2_no_drain_counterexample :
    (run oiAt0 alwaysComposing "5511999990000" 201).calls = [] ∧
      (run oiAt0 alwaysComposing "5511999990000" 201).buffer =
        some ⟨["oi"], 200, true⟩ :=
  ⟨by decide, by decide⟩

theorem update_presence_composing (t : Nat) (b : UBuf) (sc : Option USched)
    (pr : Option UPres) (c : List String) :
    update_presence "composing" t ⟨some b, sc, pr, c⟩ =
      ⟨some ⟨b.messages, t, b.processing⟩, sc, some ⟨"composing", t⟩, c⟩ := by
  simp [update_presence]

theorem presAvailable_fresh_composing (t : Nat) :
    presAvailable (some ⟨"composing", t⟩) t = false := by
  simp [presAvailable, staleTicks, Nat.sub_self]

theorem is_user_available_fresh_composing (t : Nat) (s : USys)
    (h : s.presence = some ⟨"composing", t⟩) :
    is_user_available s t = false := by
  rw [is_user_available, h]
  exact presAvailable_fresh_composing t

/-- C2 (amended): in the running buffer module presence signals do
delay the drain decision — `_wait_and_process` drains only after
`presence_timeout` (2 s) of consecutive availability, and
composing/recording presence events additionally refresh the buffer's
`last_activity` — so with a `composing` presence kept continuously
fresh the burst is never drained: after every horizon `H + 1` the
fragment is still buffered, the availability counter has never started,
and no responder call has been made.  (The presence-independent
quiescence drain described by the claim is the behaviour of the
`src/Nerai` copy, proved separately for C5.) -/
theorem C2_composing_delays_drain_forever (H : Nat) :
    run oiAt0 alwaysComposing "5511999990000" (H + 1) =
      ⟨some ⟨["oi"], H, true⟩, some ⟨0, none⟩, some ⟨"composing", H⟩, []⟩ := by
  induction H with
  | zero => decide
  | succ n ih =>
    rw [run, ih]
    have havail : is_user_available
        (⟨some ⟨["oi"], n + 1, true⟩, some ⟨0, none⟩,
          some ⟨"composing", n + 1⟩, []⟩ : USys) (n + 1) = false :=
      is_user_available_fresh_composing _ _ rfl
    simp [stepAt, alwaysComposing, oiAt0, update_presence, taskStep, havail]

/-! ### `wait_for_user_available` (lines 62-94)

The polling loop of `wait_for_user_available` in isolation, as invoked
by the delivery path (`send_message_with_presence_check` calls it with
`timeout = 10` s = 100 ticks).  The loop body `check_activity` runs once
per 100 ms tick; `availStart` is its `start_time`, and `doneAt` records
the tick at which the call returned `True` (it has no other exit). -/

/-- State of one `wait_for_user_available` call: the caller-visible
presence record, the consecutive-availability `start_time`, and the
return tick, if the call has returned. -/
structure WaitState where
  presence : Option UPres
  availStart : Option Nat
  doneAt : Option Nat
deriving DecidableEq

/-- One 100 ms iteration of `wait_for_user_available`'s `while True`
loop at tick `t`: apply the tick's presence event, then run
`check_activity` — start or continue the consecutive-availability
count when available, reset it when not, and return once `timeout`
ticks of continuous availability have accumulated. -/
def waitStep (pres : Nat → Option String) (timeoutTicks : Nat)
    (t : Nat) (w : WaitState) : WaitState :=
  match w.doneAt with
  | some _ => w
  | none =>
    let p := match pres t with
      | some st => some (⟨st, t⟩ : UPres)
      | none => w.presence
    if presAvailable p t then
      match w.availStart with
      | none => ⟨p, some t, none⟩
      | some a =>
        if timeoutTicks ≤ t - a then ⟨p, some a, some t⟩
        else ⟨p, some a, none⟩
    else ⟨p, none, none⟩

/-- Run the wait loop for `n` ticks from a fresh call
(`start_time = None`). -/
def waitRun (pres : Nat → Option String) (timeoutTicks : Nat) : Nat → WaitState
  | 0 => ⟨none, none, none⟩
  | n + 1 => waitStep pres timeoutTicks n (waitRun pres timeoutTicks n)

theorem waitRun_composing_closed (timeoutTicks : Nat) (H : Nat) :
    waitRun alwaysComposing timeoutTicks (H + 1) =
      ⟨some ⟨"composing", H⟩, none, none⟩ := by
  induction H with
  | zero =>
    show waitStep alwaysComposing timeoutTicks 0 ⟨none, none, none⟩ = _
    simp [waitStep, alwaysComposing, presAvailable, staleTicks]
  | succ n ih =>
    rw [waitRun, ih]
    have havail := presAvailable_fresh_composing (n + 1)
    simp [waitStep, alwaysComposing, havail]

/-- C8 (amended): the delivery path imposes no upper bound on the wait
for recipient availability.  `wait_for_user_available` has no deadline:
its `timeout` argument is the required span of *consecutive
availability*, not a give-up time, and `send_message_with_presence_check`
applies no outer bound either.  With a `composing` presence refreshed
every 100 ms the call has not returned at any horizon `H`, its
availability counter has never even started, and the chunk send is
never reached; the only implicit release is the 30 s staleness rule
once presence events cease. -/
theorem C8_wait_unbounded (H : Nat) :
    (waitRun alwaysComposing 100 H).doneAt = none ∧
      (waitRun alwaysComposing 100 H).availStart = none := by
  cases H with
  | zero => exact ⟨rfl, rfl⟩
  | succ n => rw [waitRun_composing_closed]; exact ⟨rfl, rfl⟩

/-- C8 counterexample: at the concrete horizon of 60 s (600 ticks, far
beyond any bound suggested by the spec — e.g. beyond staleness 30 s
plus timeout 10 s) the wait called by the delivery path with
`timeout = 10` s has still not returned under a continuously fresh
`composing` presence, so no chunk has been sent. -/
theorem C8_stall_counterexample :
    (waitRun alwaysComposing 100 600).doneAt = none := by
  decide

end UtilsBuf

namespace NeraiBuf

/-! ## Nerai-copy buffer module (`src/Nerai/utils/message_buffer.py`)

Model of the older copy, whose `handle_message` (lines 82-134) contains
the quiescence wait inline: the task that set `processing` sleeps 1 s
at a time until `time.time() - last_activity >= buffer_time` (10 s),
then drains and processes.  One tick is one second.  Presence plays no
role in this copy: neither `update_presence` nor
`wait_for_user_available` exists in its drain path.

The run state pairs the per-identity `NSys` with the list of inbound
events not yet delivered; an event is a `(second, fragment)` pair and
the list is consumed in order, all events of the current second per
tick (`popBatch`), before the waiting task's 1 s poll runs. -/

/-- The window `MessageBufferConfig.buffer_time = 10` seconds (line 17). -/
def bufferTime : Nat := 10

/-- One `_message_buffer` entry: `messages`, `last_activity`,
`processing`. -/
structure NBuf where
  messages : List String
  lastActivity : Nat
  processing : Bool
deriving DecidableEq

/-- Per-identity state plus the log of `agent_executor.ainvoke`
inputs. -/
structure NSys where
  buffer : Option NBuf
  calls : List String
deriving DecidableEq

def initNSys : NSys := ⟨none, []⟩

/-- Model of `MessageBuffer.handle_message` of the Nerai copy, lines 82-110 (the
part before the inline wait): drop the agent's own number, lazily
create the buffer entry, reset it when it already holds
`max_buffer_size` fragments, append the fragment, stamp
`last_activity`, and mark `processing` when no task holds it yet. -/
def handle_message (number msg : String) (t : Nat) (s : NSys) : NSys :=
  if number = agentNumber then s
  else
    let b0 := s.buffer.getD ⟨[], t, false⟩
    let b1 := if maxBufferSize ≤ b0.messages.length then (⟨[], t, false⟩ : NBuf) else b0
    let b2 : NBuf := ⟨b1.messages ++ [msg], t, b1.processing⟩
    if b2.processing then ⟨some b2, s.calls⟩
    else ⟨some ⟨b2.messages, b2.lastActivity, true⟩, s.calls⟩

/-- One 1 s poll of the task holding `processing` (lines 112-129): while
`time.time() - last_activity < buffer_time` keep sleeping; once
quiescent, read `messages`, drop the buffer entry and, when non-empty,
record the `" ".join`ed context as one `ainvoke` call
(`_process_message`, modelled as instantaneous). -/
def schedulerStep (t : Nat) (s : NSys) : NSys :=
  match s.buffer with
  | none => s
  | some b =>
    if b.processing = true ∧ bufferTime ≤ t - b.lastActivity then
      ⟨none, s.calls ++ (if b.messages = [] then [] else [joinSpace b.messages])⟩
    else s

/-- Split off the inbound events of second `t` from the head of the
pending event list (events are sorted by time, so only a head run can
match). -/
def popBatch (t : Nat) : List (Nat × String) → List String × List (Nat × String)
  | [] => ([], [])
  | e :: rest =>
    if e.1 = t then
      let p := popBatch t rest
      (e.2 :: p.1, p.2)
    else ([], e :: rest)

/-- One whole second: deliver the second's inbound fragments through
`handle_message` in order, then run the waiting task's poll. -/
def stepAt (number : String) (t : Nat) (st : NSys × List (Nat × String)) :
    NSys × List (Nat × String) :=
  (schedulerStep t
      ((popBatch t st.2).1.foldl (fun s m => handle_message number m t s) st.1),
    (popBatch t st.2).2)

/-- Run the system for `n` seconds (ticks `0` to `n - 1`) against the
pending event list `evs`. -/
def run (number : String) (evs : List (Nat × String)) : Nat → NSys × List (Nat × String)
  | 0 => (initNSys, evs)
  | n + 1 => stepAt number n (run number evs n)

/-- Event times are nondecreasing and each event is less than
`bufferTime` after the previous one, starting from `la`. -/
def gapsOK : Nat → List (Nat × String) → Bool
  | _, [] => true
  | la, e :: r => (decide (la ≤ e.1) && decide (e.1 < la + bufferTime)) && gapsOK e.1 r

/-- A burst: a non-empty event list in which every fragment arrives
within less than the quiescence window of the previous one. -/
def burstOK : List (Nat × String) → Bool
  | [] => false
  | e :: r => gapsOK e.1 r

/-- The time of the last event, `la` when there is none. -/
def lastT (la : Nat) : List (Nat × String) → Nat
  | [] => la
  | e :: r => lastT e.1 r

theorem gapsOK_cons {la : Nat} {e : Nat × String} {r : List (Nat × String)}
    (h : gapsOK la (e :: r) = true) :
    la ≤ e.1 ∧ e.1 < la + bufferTime ∧ gapsOK e.1 r = true := by
  simp only [gapsOK, Bool.and_eq_true, decide_eq_true_eq] at h
  exact ⟨h.1.1, h.1.2, h.2⟩

theorem gapsOK_mono {la : Nat} {l : List (Nat × String)}
    (h : gapsOK la l = true) : ∀ e ∈ l, la ≤ e.1 := by
  induction l generalizing la with
  | nil => intro e he; cases he
  | cons x r ih =>
    obtain ⟨h1, -, h3⟩ := gapsOK_cons h
    intro e he
    rcases List.mem_cons.mp he with he | he
    · exact he ▸ h1
    · exact le_trans h1 (ih h3 e he)

theorem lastT_cons (la : Nat) (e : Nat × String) (r : List (Nat × String)) :
    lastT la (e :: r) = lastT e.1 r := rfl

theorem popBatch_cons_ne {t : Nat} {e : Nat × String} {r : List (Nat × String)}
    (h : e.1 ≠ t) : popBatch t (e :: r) = ([], e :: r) := by
  simp [popBatch, h]

theorem popBatch_cons_eq (t : Nat) (m : String) (r : List (Nat × String)) :
    popBatch t ((t, m) :: r) =
      ((t, m).2 :: (popBatch t r).1, (popBatch t r).2) := by
  simp [popBatch]

theorem popBatch_len (t : Nat) (l : List (Nat × String)) :
    (popBatch t l).1.length + (popBatch t l).2.length = l.length := by
  induction l with
  | nil => rfl
  | cons e r ih =>
    by_cases h : e.1 = t
    · simp only [popBatch, if_pos h, List.length_cons]
      omega
    · simp [popBatch, h]

theorem popBatch_map (t : Nat) (l : List (Nat × String)) :
    l.map Prod.snd = (popBatch t l).1 ++ (popBatch t l).2.map Prod.snd := by
  induction l with
  | nil => rfl
  | cons e r ih =>
    by_cases h : e.1 = t
    · simp only [popBatch, if_pos h, List.map_cons, List.cons_append]
      rw [ih]
    · simp [popBatch, h]

theorem popBatch_gapsOK (t : Nat) (l : List (Nat × String))
    (h : gapsOK t l = true) : gapsOK t (popBatch t l).2 = true := by
  induction l with
  | nil => exact h
  | cons e r ih =>
    obtain ⟨-, -, h3⟩ := gapsOK_cons h
    by_cases he : e.1 = t
    · simp only [popBatch, if_pos he]
      exact ih (he ▸ h3)
    · simpa [popBatch, he] using h

theorem popBatch_strict (t : Nat) (l : List (Nat × String))
    (h : gapsOK t l = true) : ∀ e ∈ (popBatch t l).2, t < e.1 := by
  induction l with
  | nil => intro e he; simp [popBatch] at he
  | cons x r ih =>
    obtain ⟨h1, -, h3⟩ := gapsOK_cons h
    by_cases hx : x.1 = t
    · simp only [popBatch, if_pos hx]
      exact ih (hx ▸ h3)
    · intro e he
      simp only [popBatch, if_neg hx] at he
      rcases List.mem_cons.mp he with he | he
      · subst he; omega
      · have := gapsOK_mono h3 e he
        omega

theorem popBatch_lastT (t : Nat) (l : List (Nat × String)) :
    lastT t l = lastT t (popBatch t l).2 := by
  induction l with
  | nil => rfl
  | cons e r ih =>
    by_cases h : e.1 = t
    · simp only [popBatch, if_pos h, lastT_cons, h]
      exact (h ▸ ih)
    · simp [popBatch, h]

theorem handle_message_agent (msg : String) (t : Nat) (s : NSys) :
    handle_message agentNumber msg t s = s := by
  simp [handle_message]

theorem foldl_handle_agent (t : Nat) :
    ∀ (ms : List String) (s : NSys),
      ms.foldl (fun s m => handle_message agentNumber m t s) s = s := by
  intro ms
  induction ms with
  | nil => intro s; rfl
  | cons m r ih => intro s; rw [List.foldl_cons, handle_message_agent]; exact ih s

theorem run_agent (evs : List (Nat × String)) :
    ∀ n, (run agentNumber evs n).1 = initNSys := by
  intro n
  induction n with
  | zero => rfl
  | succ k ih =>
    show (stepAt agentNumber k (run agentNumber evs k)).1 = initNSys
    unfold stepAt
    rw [foldl_handle_agent, ih]
    rfl

theorem foldl_handle_some (number : String) (hnum : number ≠ agentNumber) (t : Nat) :
    ∀ (ms : List String) (M : List String) (la : Nat) (p : Bool) (calls : List String),
      ms ≠ [] → M.length + ms.length ≤ maxBufferSize →
      ms.foldl (fun s m => handle_message number m t s) ⟨some ⟨M, la, p⟩, calls⟩ =
        ⟨some ⟨M ++ ms, t, true⟩, calls⟩ := by
  intro ms
  induction ms with
  | nil => intro M la p calls hne _; exact absurd rfl hne
  | cons m r ih =>
    intro M la p calls _ hlen
    have hM : ¬(maxBufferSize ≤ M.length) := by
      simp only [List.length_cons] at hlen
      omega
    have hstep : handle_message number m t ⟨some ⟨M, la, p⟩, calls⟩ =
        ⟨some ⟨M ++ [m], t, true⟩, calls⟩ := by
      unfold handle_message
      rw [if_neg hnum]
      simp only [Option.getD_some]
      rw [if_neg hM]
      cases p <;> simp
    rw [List.foldl_cons, hstep]
    cases hr : r with
    | nil => simp
    | cons m2 r2 =>
      rw [← hr, ih (M ++ [m]) t true calls (by rw [hr]; simp)
        (by simp only [List.length_append, List.length_cons,
              List.length_nil] at hlen ⊢; omega)]
      simp

theorem foldl_handle_none (number : String) (hnum : number ≠ agentNumber) (t : Nat) :
    ∀ (ms : List String) (calls : List String),
      ms ≠ [] → ms.length ≤ maxBufferSize →
      ms.foldl (fun s m => handle_message number m t s) ⟨none, calls⟩ =
        ⟨some ⟨ms, t, true⟩, calls⟩ := by
  intro ms calls hne hlen
  cases ms with
  | nil => exact absurd rfl hne
  | cons m r =>
    have hstep : handle_message number m t ⟨none, calls⟩ =
        ⟨some ⟨[m], t, true⟩, calls⟩ := by
      unfold handle_message
      rw [if_neg hnum]
      simp [maxBufferSize]
    rw [List.foldl_cons, hstep]
    cases hr : r with
    | nil => simp
    | cons m2 r2 =>
      rw [← hr, foldl_handle_some number hnum t r [m] t true calls
        (by rw [hr]; simp)
        (by simp only [List.length_cons, List.length_nil] at hlen ⊢; omega)]
      simp

/-- While no event is due and the buffer is still within its quiescence
window, each 1 s poll leaves the state unchanged. -/
theorem run_seg (number : String) (evs : List (Nat × String)) :
    ∀ (k n : Nat) (M : List String) (la : Nat) (calls : List String)
      (rem : List (Nat × String)),
      run number evs n = (⟨some ⟨M, la, true⟩, calls⟩, rem) →
      (∀ e ∈ rem, n + k ≤ e.1) →
      n + k ≤ la + bufferTime →
      run number evs (n + k) = (⟨some ⟨M, la, true⟩, calls⟩, rem) := by
  intro k
  induction k with
  | zero => intro n M la calls rem hst _ _; simpa using hst
  | succ k ih =>
    intro n M la calls rem hst hrem hla
    have hstep := ih n M la calls rem hst
      (fun e he => le_trans (by omega) (hrem e he))
      (by omega)
    have heq : n + (k + 1) = (n + k) + 1 := by omega
    rw [heq, run, hstep]
    unfold stepAt
    have hpop : popBatch (n + k) rem = ([], rem) := by
      cases rem with
      | nil => rfl
      | cons e r =>
        exact popBatch_cons_ne (by have := hrem e (by simp); omega)
    rw [hpop]
    simp only [List.foldl_nil]
    simp only [schedulerStep]
    rw [if_neg (by
      intro hc
      have h2 := hc.2
      have hB : bufferTime = 10 := rfl
      omega)]

/-- While no event is due and no buffer exists, each 1 s poll leaves the
state unchanged. -/
theorem run_seg_none (number : String) (evs : List (Nat × String)) :
    ∀ (k n : Nat) (calls : List String) (rem : List (Nat × String)),
      run number evs n = (⟨none, calls⟩, rem) →
      (∀ e ∈ rem, n + k ≤ e.1) →
      run number evs (n + k) = (⟨none, calls⟩, rem) := by
  intro k
  induction k with
  | zero => intro n calls rem hst _; simpa using hst
  | succ k ih =>
    intro n calls rem hst hrem
    have hstep := ih n calls rem hst
      (fun e he => le_trans (by omega) (hrem e he))
    have heq : n + (k + 1) = (n + k) + 1 := by omega
    rw [heq, run, hstep]
    unfold stepAt
    have hpop : popBatch (n + k) rem = ([], rem) := by
      cases rem with
      | nil => rfl
      | cons e r =>
        exact popBatch_cons_ne (by have := hrem e (by simp); omega)
    rw [hpop]
    simp only [List.foldl_nil]
    rfl

/-- Once the whole burst has been appended, the task keeps waiting
until the buffer has been quiescent for the full window, then drains it
in one `ainvoke` call, and the state stays there. -/
theorem run_main_tail (number : String) (evs : List (Nat × String))
    (_hnum : number ≠ agentNumber) (M : List String) (la : Nat)
    (calls : List String) (hMne : M ≠ [])
    (hst : run number evs (la + 1) = (⟨some ⟨M, la, true⟩, calls⟩, [])) :
    ∀ H, lastT la ([] : List (Nat × String)) + bufferTime < H →
      run number evs H =
        (⟨none,
          calls ++ [joinSpace (M ++ ([] : List (Nat × String)).map Prod.snd)]⟩,
          []) := by
  intro H hH
  have hB : bufferTime = 10 := rfl
  have hlast : lastT la ([] : List (Nat × String)) = la := rfl
  rw [hlast] at hH
  have hseg := run_seg number evs 9 (la + 1) M la calls [] hst
    (by intro e he; cases he) (by omega)
  have h10 : la + 1 + 9 = la + 10 := by omega
  rw [h10] at hseg
  have hdrain : run number evs (la + 11) =
      (⟨none, calls ++ [joinSpace M]⟩, []) := by
    have h11 : la + 11 = (la + 10) + 1 := by omega
    rw [h11, run, hseg]
    unfold stepAt
    rw [show popBatch (la + 10) ([] : List (Nat × String)) = ([], []) from rfl]
    simp only [List.foldl_nil]
    simp only [schedulerStep]
    rw [if_pos ⟨trivial, by omega⟩]
    rw [if_neg hMne]
  have hsplit : H = (la + 11) + (H - (la + 11)) := by omega
  rw [hsplit]
  rw [run_seg_none number evs (H - (la + 11)) (la + 11)
    (calls ++ [joinSpace M]) [] hdrain (by intro e he; cases he)]
  simp

/-- Main induction: from a state holding a non-empty buffer right after
its last append, with the remaining burst events still pending, the
system drains exactly once — one `ainvoke` call whose input is the
space-joined concatenation of everything, at quiescence after the last
event — and ends with no buffer and no pending events. -/
theorem run_main (number : String) (evs : List (Nat × String))
    (hnum : number ≠ agentNumber) :
    ∀ (fuel : Nat) (rem : List (Nat × String)), rem.length ≤ fuel →
    ∀ (M : List String) (la : Nat) (calls : List String),
      gapsOK la rem = true →
      (∀ e ∈ rem, la < e.1) →
      M ≠ [] →
      M.length + rem.length ≤ maxBufferSize →
      run number evs (la + 1) = (⟨some ⟨M, la, true⟩, calls⟩, rem) →
      ∀ H, lastT la rem + bufferTime < H →
        run number evs H =
          (⟨none, calls ++ [joinSpace (M ++ rem.map Prod.snd)]⟩, []) := by
  intro fuel
  induction fuel with
  | zero =>
    intro rem hfuel M la calls _ _ hMne _ hst H hH
    have hrem : rem = [] := List.length_eq_zero.mp (Nat.le_zero.mp hfuel)
    subst hrem
    exact run_main_tail number evs hnum M la calls hMne hst H hH
  | succ f ih =>
    intro rem hfuel M la calls hgaps hstrict hMne hsize hst H hH
    cases rem with
    | nil =>
      exact run_main_tail number evs hnum M la calls hMne hst H hH
    | cons e r =>
      obtain ⟨t1, m⟩ := e
      obtain ⟨hle, hlt10, hgr⟩ := gapsOK_cons hgaps
      simp only at hle hlt10 hgr
      have hstr1 : la < t1 := by
        have := hstrict (t1, m) (by simp)
        simpa using this
      have hseg := run_seg number evs (t1 - (la + 1)) (la + 1) M la calls
        ((t1, m) :: r) hst
        (fun e he => by
          rcases List.mem_cons.mp he with he | he
          · subst he; simp; omega
          · have := gapsOK_mono hgr e he; omega)
        (by omega)
      have heqt : la + 1 + (t1 - (la + 1)) = t1 := by omega
      rw [heqt] at hseg
      have hstep : run number evs (t1 + 1) =
          (⟨some ⟨M ++ m :: (popBatch t1 r).1, t1, true⟩, calls⟩,
            (popBatch t1 r).2) := by
        rw [run, hseg]
        unfold stepAt
        rw [show popBatch t1 ((t1, m) :: r) =
            (m :: (popBatch t1 r).1, (popBatch t1 r).2) from
          popBatch_cons_eq t1 m r]
        have hblen : (popBatch t1 r).1.length + (popBatch t1 r).2.length
            = r.length := popBatch_len t1 r
        rw [foldl_handle_some number hnum t1 (m :: (popBatch t1 r).1) M la true
          calls (by simp)
          (by simp only [List.length_cons] at hsize ⊢; omega)]
        simp only [schedulerStep]
        rw [if_neg (by
          intro hc
          have h2 := hc.2
          have hB : bufferTime = 10 := rfl
          omega)]
      have hblen : (popBatch t1 r).1.length + (popBatch t1 r).2.length
          = r.length := popBatch_len t1 r
      have hrec := ih (popBatch t1 r).2
        (by simp only [List.length_cons] at hfuel; omega)
        (M ++ m :: (popBatch t1 r).1) t1 calls
        (popBatch_gapsOK t1 r hgr)
        (popBatch_strict t1 r hgr)
        (by simp)
        (by simp only [List.length_append, List.length_cons] at hsize ⊢; omega)
        hstep H
        (by rw [lastT_cons] at hH; simpa [popBatch_lastT t1 r] using hH)
      rw [hrec]
      have hmap : (M ++ m :: (popBatch t1 r).1) ++
          ((popBatch t1 r).2.map Prod.snd) = M ++ ((t1, m) :: r).map Prod.snd := by
        simp only [List.map_cons, List.append_assoc, List.cons_append]
        rw [← popBatch_map t1 r]
      rw [hmap]

/-- C1 (amended): in the Nerai copy — the one whose configuration has
the 10 s quiescence window — for every identity other than the agent's
own number, a burst of at most `max_buffer_size` fragments each
arriving within less than the window of the previous one yields, once
the window has elapsed after the last fragment, exactly one
`agent_executor.ainvoke` call whose input is the fragments joined in
arrival order by single spaces; afterwards the buffer is gone and
nothing further happens. -/
theorem C1_nerai_single_coalesced_call (number : String)
    (evs : List (Nat × String)) (hnum : number ≠ agentNumber)
    (hburst : burstOK evs = true) (hlen : evs.length ≤ maxBufferSize) :
    ∀ H, lastT 0 evs + bufferTime < H →
      run number evs H = (⟨none, [joinSpace (evs.map Prod.snd)]⟩, []) := by
  intro H hH
  cases evs with
  | nil => simp [burstOK] at hburst
  | cons e r =>
    obtain ⟨t1, m⟩ := e
    have hg : gapsOK t1 r = true := by simpa [burstOK] using hburst
    have hB : bufferTime = 10 := rfl
    have hseg0 := run_seg_none number ((t1, m) :: r) t1 0 [] ((t1, m) :: r) rfl
      (fun e he => by
        rcases List.mem_cons.mp he with he | he
        · subst he; simp
        · have := gapsOK_mono hg e he
          omega)
    rw [Nat.zero_add] at hseg0
    have hblen := popBatch_len t1 r
    have hstep : run number ((t1, m) :: r) (t1 + 1) =
        (⟨some ⟨m :: (popBatch t1 r).1, t1, true⟩, []⟩, (popBatch t1 r).2) := by
      rw [run, hseg0]
      unfold stepAt
      rw [popBatch_cons_eq t1 m r]
      rw [foldl_handle_none number hnum t1 (m :: (popBatch t1 r).1) []
        (by simp)
        (by simp only [List.length_cons] at hlen ⊢; omega)]
      simp only [schedulerStep]
      rw [if_neg (by
        intro hc
        have h2 := hc.2
        omega)]
    have hmain := run_main number ((t1, m) :: r) hnum (popBatch t1 r).2.length
      (popBatch t1 r).2 (le_refl _)
      (m :: (popBatch t1 r).1) t1 []
      (popBatch_gapsOK t1 r hg)
      (popBatch_strict t1 r hg)
      (by simp)
      (by simp only [List.length_cons] at hlen ⊢; omega)
      hstep H
      (by
        have h1 : lastT 0 ((t1, m) :: r) = lastT t1 r := rfl
        rw [h1] at hH
        rw [← popBatch_lastT t1 r]
        exact hH)
    rw [hmain]
    have hmap : (m :: (popBatch t1 r).1) ++ (popBatch t1 r).2.map Prod.snd =
        ((t1, m) :: r).map Prod.snd := by
      simp only [List.map_cons, List.cons_append]
      rw [← popBatch_map t1 r]
    rw [hmap]
    simp

theorem stepAt_pair (number : String) (t : Nat) (s : NSys)
    (pend : List (Nat × String)) :
    stepAt number t (s, pend) =
      (schedulerStep t
          ((popBatch t pend).1.foldl (fun s m => handle_message number m t s) s),
        (popBatch t pend).2) := rfl

/-- C1 witness: the coalescing theorem applied at the spec's own
scenario — `"oi"` at t = 0 s and `"queria saber sobre planos"` at
t = 3 s, observed at t = 14 s — yielding the single input
`"oi queria saber sobre planos"`. -/
theorem C1_nerai_single_coalesced_call_witness :
    ("5511988880000" ≠ agentNumber ∧
      burstOK [(0, "oi"), (3, "queria saber sobre planos")] = true ∧
      ([(0, "oi"), (3, "queria saber sobre planos")] :
        List (Nat × String)).length ≤ maxBufferSize ∧
      lastT 0 [(0, "oi"), (3, "queria saber sobre planos")] + bufferTime < 14) ∧
    run "5511988880000" [(0, "oi"), (3, "queria saber sobre planos")] 14 =
      (⟨none, ["oi queria saber sobre planos"]⟩, []) := by
  refine ⟨⟨by decide, by decide, by decide, by decide⟩, ?_⟩
  rw [C1_nerai_single_coalesced_call "5511988880000"
    [(0, "oi"), (3, "queria saber sobre planos")]
    (by decide) (by decide) (by decide) 14 (by decide)]
  decide

/-- C5 (amended): in the Nerai copy — the one with the 10 s quiescence
window — with fragments at time T and T + 9 s, no drain and no
responder call has happened by T + 19 s: every new fragment pushes the
drain point to a full window after its own arrival.  (For a non-agent
identity the buffer still holds both fragments, the second's arrival
time stamped as `last_activity`.) -/
theorem C5_nerai_debounce_extension (number : String) (T : Nat)
    (m1 m2 : String) :
    (run number [(T, m1), (T + 9, m2)] (T + 19)).1.calls = [] ∧
      (number ≠ agentNumber →
        (run number [(T, m1), (T + 9, m2)] (T + 19)).1 =
          ⟨some ⟨[m1, m2], T + 9, true⟩, []⟩) := by
  by_cases hnum : number = agentNumber
  · subst hnum
    refine ⟨?_, fun hc => absurd rfl hc⟩
    rw [run_agent]
    rfl
  · have hB : bufferTime = 10 := rfl
    have hfull : run number [(T, m1), (T + 9, m2)] (T + 19) =
        (⟨some ⟨[m1, m2], T + 9, true⟩, []⟩, []) := by
      have hseg0 := run_seg_none number [(T, m1), (T + 9, m2)] T 0 []
        [(T, m1), (T + 9, m2)] rfl
        (fun e he => by
          rcases List.mem_cons.mp he with he | he
          · subst he; simp
          · rcases List.mem_cons.mp he with he | he
            · subst he; simp
            · cases he)
      rw [Nat.zero_add] at hseg0
      have hpop1 : popBatch T [(T, m1), (T + 9, m2)] = ([m1], [(T + 9, m2)]) := by
        rw [popBatch_cons_eq T m1 [(T + 9, m2)],
          popBatch_cons_ne (show ((T + 9 : Nat), m2).1 ≠ T by simp)]
      have hstep1 : run number [(T, m1), (T + 9, m2)] (T + 1) =
          (⟨some ⟨[m1], T, true⟩, []⟩, [(T + 9, m2)]) := by
        rw [run, hseg0, stepAt_pair, hpop1]
        rw [foldl_handle_none number hnum T [m1] [] (by simp)
          (by simp [maxBufferSize])]
        simp only [schedulerStep]
        rw [if_neg (by
          intro hc
          have h2 := hc.2
          omega)]
      have hseg1 := run_seg number [(T, m1), (T + 9, m2)] 8 (T + 1) [m1] T []
        [(T + 9, m2)] hstep1
        (fun e he => by
          rcases List.mem_cons.mp he with he | he
          · subst he; simp
          · cases he)
        (by omega)
      have heq1 : T + 1 + 8 = T + 9 := by omega
      rw [heq1] at hseg1
      have hstep2 : run number [(T, m1), (T + 9, m2)] (T + 10) =
          (⟨some ⟨[m1, m2], T + 9, true⟩, []⟩, []) := by
        have h9 : T + 10 = (T + 9) + 1 := by omega
        rw [h9, run, hseg1, stepAt_pair]
        rw [popBatch_cons_eq (T + 9) m2 []]
        rw [show popBatch (T + 9) ([] : List (Nat × String)) = ([], []) from rfl]
        rw [foldl_handle_some number hnum (T + 9) [m2] [m1] T true []
          (by simp) (by simp [maxBufferSize])]
        simp only [schedulerStep]
        rw [if_neg (by
          intro hc
          have h2 := hc.2
          omega)]
        rfl
      have hseg2 := run_seg number [(T, m1), (T + 9, m2)] 9 (T + 10) [m1, m2]
        (T + 9) [] [] hstep2 (by intro e he; cases he) (by omega)
      have heq2 : T + 10 + 9 = T + 19 := by omega
      rw [heq2] at hseg2
      exact hseg2
    exact ⟨by rw [hfull], fun _ => by rw [hfull]⟩

/-- C5 witness: the debounce-extension theorem applied at T = 0 with
fragments `"a"` and `"b"` for identity `"5511900000001"`. -/
theorem C5_nerai_debounce_extension_witness :
    ("5511900000001" ≠ agentNumber) ∧
      (run "5511900000001" [(0, "a"), (0 + 9, "b")] (0 + 19)).1.calls = [] ∧
      (run "5511900000001" [(0, "a"), (0 + 9, "b")] (0 + 19)).1 =
        ⟨some ⟨["a", "b"], 0 + 9, true⟩, []⟩ :=
  ⟨by decide,
    (C5_nerai_debounce_extension "5511900000001" 0 "a" "b").1,
    (C5_nerai_debounce_extension "5511900000001" 0 "a" "b").2 (by decide)⟩

/-- Number of fragments currently buffered. -/
def nbufLen (s : NSys) : Nat :=
  match s.buffer with
  | none => 0
  | some b => b.messages.length

theorem handle_message_len (number msg : String) (t : Nat) (s : NSys)
    (h : nbufLen s ≤ maxBufferSize) :
    nbufLen (handle_message number msg t s) ≤ maxBufferSize := by
  unfold handle_message
  split
  · exact h
  · cases hb : s.buffer with
    | none =>
      simp only [hb, Option.getD_some, Option.getD_none]
      split
      · split <;> simp [nbufLen, maxBufferSize]
      · split <;> simp [nbufLen, maxBufferSize]
    | some b =>
      have hlen : b.messages.length ≤ maxBufferSize := by
        simpa [nbufLen, hb] using h
      simp only [hb, Option.getD_some]
      split
      · split <;> simp [nbufLen, maxBufferSize]
      · rename_i hov
        split <;>
          (simp only [nbufLen, List.length_append, List.length_cons,
            List.length_nil]; omega)

theorem foldl_handle_len (number : String) (t : Nat) :
    ∀ (ms : List String) (s : NSys), nbufLen s ≤ maxBufferSize →
      nbufLen (ms.foldl (fun s m => handle_message number m t s) s) ≤
        maxBufferSize := by
  intro ms
  induction ms with
  | nil => intro s h; exact h
  | cons m r ih =>
    intro s h
    rw [List.foldl_cons]
    exact ih _ (handle_message_len number m t s h)

theorem schedulerStep_len (t : Nat) (s : NSys)
    (h : nbufLen s ≤ maxBufferSize) :
    nbufLen (schedulerStep t s) ≤ maxBufferSize := by
  unfold schedulerStep
  split
  · exact h
  · split
    · simp [nbufLen]
    · exact h

/-- The per-identity fragment count never exceeds the configured cap at
any point of any run of the Nerai copy. -/
theorem run_buffer_bound (number : String) (evs : List (Nat × String)) :
    ∀ H, nbufLen (run number evs H).1 ≤ maxBufferSize := by
  intro H
  induction H with
  | zero => simp [run, initNSys, nbufLen]
  | succ n ih =>
    rw [run]
    simp only [stepAt]
    exact schedulerStep_len _ _ (foldl_handle_len _ _ _ _ ih)

/-- Overflow reset of the Nerai copy's `handle_message` (lines 95-99
plus the append): a fragment arriving at a full buffer resets it and
leaves exactly the triggering fragment. -/
theorem handle_message_overflow_nerai (number msg : String) (t : Nat)
    (M : List String) (la : Nat) (p : Bool) (calls : List String)
    (hnum : number ≠ agentNumber) (hfull : maxBufferSize ≤ M.length) :
    handle_message number msg t ⟨some ⟨M, la, p⟩, calls⟩ =
      ⟨some ⟨[msg], t, true⟩, calls⟩ := by
  unfold handle_message
  rw [if_neg hnum]
  simp only [Option.getD_some]
  rw [if_pos hfull]
  simp

end NeraiBuf

namespace UtilsBuf

theorem uhandle_message_agent (msg : String) (t : Nat) (s : USys) :
    handle_message agentNumber msg t s = s := by
  simp [handle_message]

/-- Number of fragments currently buffered. -/
def ubufLen (s : USys) : Nat :=
  match s.buffer with
  | none => 0
  | some b => b.messages.length

theorem update_presence_buflen (st : String) (t : Nat) (s : USys) :
    ubufLen (update_presence st t s) = ubufLen s := by
  unfold update_presence
  cases hb : s.buffer with
  | none => simp [ubufLen, hb]
  | some b => split <;> simp [ubufLen, hb]

theorem uhandle_message_len (number msg : String) (t : Nat) (s : USys)
    (h : ubufLen s ≤ maxBufferSize) :
    ubufLen (handle_message number msg t s) ≤ maxBufferSize := by
  unfold handle_message
  split
  · exact h
  · cases hb : s.buffer with
    | none =>
      simp only [hb, Option.getD_none]
      split
      · split <;> simp [ubufLen, maxBufferSize]
      · split <;> simp [ubufLen, maxBufferSize]
    | some b =>
      have hlen : b.messages.length ≤ maxBufferSize := by
        simpa [ubufLen, hb] using h
      simp only [hb, Option.getD_some]
      split
      · split <;> simp [ubufLen, maxBufferSize]
      · rename_i hov
        split <;>
          (simp only [ubufLen, List.length_append, List.length_cons,
            List.length_nil]; omega)

theorem foldl_uhandle_len (number : String) (t : Nat) :
    ∀ (ms : List String) (s : USys), ubufLen s ≤ maxBufferSize →
      ubufLen (ms.foldl (fun s m => handle_message number m t s) s) ≤
        maxBufferSize := by
  intro ms
  induction ms with
  | nil => intro s h; exact h
  | cons m r ih =>
    intro s h
    rw [List.foldl_cons]
    exact ih _ (uhandle_message_len number m t s h)

theorem taskStep_buflen (t : Nat) (s : USys)
    (h : ubufLen s ≤ maxBufferSize) :
    ubufLen (taskStep t s) ≤ maxBufferSize := by
  unfold taskStep
  split
  · exact h
  · split
    · simpa [ubufLen] using h
    · split
      · split
        · simpa [ubufLen] using h
        · split
          · split
            · simpa [ubufLen] using h
            · simp [ubufLen]
          · exact h
      · simpa [ubufLen] using h

/-- The per-identity fragment count never exceeds the configured cap at
any point of any run of the top-level copy. -/
theorem urun_buffer_bound (arr : Nat → List String)
    (pres : Nat → Option String) (number : String) :
    ∀ H, ubufLen (run arr pres number H) ≤ maxBufferSize := by
  intro H
  induction H with
  | zero => simp [run, initUSys, ubufLen]
  | succ n ih =>
    rw [run]
    unfold stepAt
    apply taskStep_buflen
    apply foldl_uhandle_len
    cases hp : pres n with
    | none => exact ih
    | some st => rw [update_presence_buflen]; exact ih

/-- Overflow reset of the top-level copy's `handle_message`
(lines 260-266 plus the append): a fragment arriving at a full buffer
resets it, leaves exactly the triggering fragment, and (the reset
having cleared `processing`) starts a fresh task. -/
theorem uhandle_message_overflow (number msg : String) (t : Nat)
    (M : List String) (la : Nat) (p : Bool) (sched : Option USched)
    (pres : Option UPres) (calls : List String)
    (hnum : number ≠ agentNumber) (hfull : maxBufferSize ≤ M.length) :
    handle_message number msg t ⟨some ⟨M, la, p⟩, sched, pres, calls⟩ =
      ⟨some ⟨[msg], t, true⟩, some ⟨t, none⟩, pres, calls⟩ := by
  unfold handle_message
  rw [if_neg hnum]
  simp only [Option.getD_some]
  rw [if_pos hfull]
  simp

end UtilsBuf

/-- C6: in both copies of `handle_message`, a fragment arriving at a
buffer already holding the configured cap (100) of fragments resets the
buffer, leaving exactly the one triggering fragment; consequently the
per-identity buffer length never exceeds the cap plus one at any step
of any run (the proved run invariant is in fact the stronger bound
`≤ max_buffer_size`). -/
theorem C6_overflow_reset_and_bound :
    (∀ (number msg : String) (t : Nat) (M : List String) (la : Nat) (p : Bool)
        (calls : List String),
      number ≠ agentNumber → maxBufferSize ≤ M.length →
      NeraiBuf.handle_message number msg t ⟨some ⟨M, la, p⟩, calls⟩ =
        ⟨some ⟨[msg], t, true⟩, calls⟩) ∧
    (∀ (number msg : String) (t : Nat) (M : List String) (la : Nat) (p : Bool)
        (sched : Option UtilsBuf.USched) (pres : Option UtilsBuf.UPres)
        (calls : List String),
      number ≠ agentNumber → maxBufferSize ≤ M.length →
      UtilsBuf.handle_message number msg t ⟨some ⟨M, la, p⟩, sched, pres, calls⟩ =
        ⟨some ⟨[msg], t, true⟩, some ⟨t, none⟩, pres, calls⟩) ∧
    (∀ (number : String) (evs : List (Nat × String)) (H : Nat),
      NeraiBuf.nbufLen (NeraiBuf.run number evs H).1 ≤ maxBufferSize + 1) ∧
    (∀ (arr : Nat → List String) (pres : Nat → Option String)
        (number : String) (H : Nat),
      UtilsBuf.ubufLen (UtilsBuf.run arr pres number H) ≤ maxBufferSize + 1) :=
  ⟨fun number msg t M la p calls hnum hfull =>
      NeraiBuf.handle_message_overflow_nerai number msg t M la p calls hnum hfull,
    fun number msg t M la p sched pres calls hnum hfull =>
      UtilsBuf.uhandle_message_overflow number msg t M la p sched pres calls
        hnum hfull,
    fun number evs H =>
      Nat.le_succ_of_le (NeraiBuf.run_buffer_bound number evs H),
    fun arr pres number H =>
      Nat.le_succ_of_le (UtilsBuf.urun_buffer_bound arr pres number H)⟩

/-- C6 witness: the overflow part applied at a buffer holding exactly
100 fragments when fragment `"y"` arrives at t = 7. -/
theorem C6_overflow_reset_witness :
    ("5511922223333" ≠ agentNumber ∧
      maxBufferSize ≤ (List.replicate 100 "x").length) ∧
      NeraiBuf.handle_message "5511922223333" "y" 7
          ⟨some ⟨List.replicate 100 "x", 3, true⟩, []⟩ =
        ⟨some ⟨["y"], 7, true⟩, []⟩ :=
  ⟨⟨by decide, by simp [maxBufferSize]⟩,
    C6_overflow_reset_and_bound.1 "5511922223333" "y" 7
      (List.replicate 100 "x") 3 true [] (by decide)
      (by simp [maxBufferSize])⟩

/-- C10: every `handle_message` call whose identity is the hard-coded
agent number `'5511911043825'` returns the state unchanged in both
copies — no buffer is created or modified, no task is started, no
responder call is logged — and a whole run fed only through the agent
number produces the initial (empty) per-identity state. -/
theorem C10_agent_number_silently_dropped :
    (∀ (msg : String) (t : Nat) (s : NeraiBuf.NSys),
      NeraiBuf.handle_message agentNumber msg t s = s) ∧
    (∀ (msg : String) (t : Nat) (s : UtilsBuf.USys),
      UtilsBuf.handle_message agentNumber msg t s = s) ∧
    (∀ (evs : List (Nat × String)) (n : Nat),
      (NeraiBuf.run agentNumber evs n).1 = NeraiBuf.initNSys) :=
  ⟨NeraiBuf.handle_message_agent, UtilsBuf.uhandle_message_agent,
    NeraiBuf.run_agent⟩

end Nerai
